import Mathlib

/-!
Verification of the crypto trading engine core
(`crypto_trading_system`): portfolio accounting
(`risk/portfolio_manager.py`), the risk gate (`risk/risk_manager.py`),
the execution loop (`execution/execution_engine.py`) and the backtest
harness (`backtesting/backtest_engine.py`), shallowly embedded with
exact rational arithmetic in place of Python floats and association
lists (insertion ordered, like Python dicts) in place of dictionaries.
-/

/-- One per-symbol position, mirroring `Position` in
`risk/portfolio_manager.py` (fields `symbol`, `quantity`,
`average_price`). -/
structure Position where
  symbol : String
  quantity : ℚ
  average_price : ℚ
deriving DecidableEq

/-- Portfolio state, mirroring `PortfolioSnapshot`: `cash` plus the
dict `positions`, embedded as an insertion-ordered association list. -/
structure PortfolioSnapshot where
  cash : ℚ
  positions : List (String × Position)
deriving DecidableEq

/-- Dictionary lookup `positions[symbol]` on the association list. -/
def lookupPos : List (String × Position) → String → Option Position
  | [], _ => none
  | e :: rest, sym => if e.1 = sym then some e.2 else lookupPos rest sym

/-- Dictionary write `positions[symbol] = p`: replaces the entry in
place when the key is present, appends at the end otherwise (Python
dicts preserve insertion order). -/
def setPos : List (String × Position) → String → Position → List (String × Position)
  | [], sym, p => [(sym, p)]
  | e :: rest, sym, p => if e.1 = sym then (sym, p) :: rest else e :: setPos rest sym p

/-- The position that `update_position` starts from:
`positions.setdefault(symbol, Position(symbol))`, read-only view. -/
def positionOf (snap : PortfolioSnapshot) (sym : String) : Position :=
  (lookupPos snap.positions sym).getD ⟨sym, 0, 0⟩

/-- The per-position fill logic of `PortfolioManager.update_position`
(lines 51-85): zero fill returns the position unchanged; exact close
zeroes quantity and average price; a fill from flat takes the fill
price; a same-direction fill takes the size-weighted average price; a
smaller opposite fill keeps the average price; a flipping fill takes
the fill price. -/
def applyFill (position : Position) (fill_quantity fill_price : ℚ) : Position :=
  if fill_quantity = 0 then position
  else
    let current_qty := position.quantity
    let new_quantity := current_qty + fill_quantity
    if new_quantity = 0 then
      { position with quantity := 0, average_price := 0 }
    else if current_qty = 0 then
      { position with quantity := new_quantity, average_price := fill_price }
    else if current_qty * fill_quantity > 0 then
      let total_size := |current_qty| + |fill_quantity|
      let weighted_price :=
        (position.average_price * |current_qty| + fill_price * |fill_quantity|) / total_size
      { position with quantity := new_quantity, average_price := weighted_price }
    else if |fill_quantity| < |current_qty| then
      { position with quantity := new_quantity }
    else
      { position with quantity := new_quantity, average_price := fill_price }

/-- `PortfolioManager.update_position`: fetches (or default-inserts)
the entry for `symbol` and applies the fill logic to it.  The
`setdefault` on line 50 runs before the zero-fill check, so the entry
is written back even for a zero fill. -/
def update_position (snap : PortfolioSnapshot) (symbol : String)
    (fill_quantity fill_price : ℚ) : PortfolioSnapshot :=
  { snap with
    positions :=
      setPos snap.positions symbol (applyFill (positionOf snap symbol) fill_quantity fill_price) }

/-- `PortfolioManager.update_cash`: adds the signed delta to cash. -/
def update_cash (snap : PortfolioSnapshot) (delta : ℚ) : PortfolioSnapshot :=
  { snap with cash := snap.cash + delta }

/-- `PortfolioSnapshot.equity` / `PortfolioManager.mark_to_market`:
cash plus, per entry, `quantity * marks.get(symbol, average_price)`. -/
def mark_to_market (snap : PortfolioSnapshot) (marks : String → Option ℚ) : ℚ :=
  snap.cash + (snap.positions.map (fun e => e.2.quantity * ((marks e.1).getD e.2.average_price))).sum

/-- Folding a list of fills `(q_i, p_i)` for one symbol through
`update_position`. -/
def applyFills (snap : PortfolioSnapshot) (sym : String) (l : List (ℚ × ℚ)) : PortfolioSnapshot :=
  l.foldl (fun s f => update_position s sym f.1 f.2) snap

/-- One step of folding fills through the per-position logic. -/
def fillStep (p : Position) (f : ℚ × ℚ) : Position :=
  applyFill p f.1 f.2

/-- One operation on a `PortfolioManager`: `update_cash` or
`update_position` (the only mutators of the snapshot). -/
inductive PMOp where
  | updateCash (delta : ℚ)
  | updatePosition (symbol : String) (fill_quantity fill_price : ℚ)

/-- Interpretation of one `PMOp` on the snapshot. -/
def applyOp (snap : PortfolioSnapshot) : PMOp → PortfolioSnapshot
  | .updateCash delta => update_cash snap delta
  | .updatePosition symbol fq fp => update_position snap symbol fq fp

/-- A freshly constructed `PortfolioManager(starting_cash)` followed by
a sequence of cash and position updates. -/
def runOps (starting_cash : ℚ) (ops : List PMOp) : PortfolioSnapshot :=
  ops.foldl applyOp ⟨starting_cash, []⟩

/-- `RiskLimits` from `risk/risk_manager.py`. -/
structure RiskLimits where
  max_position_pct : ℚ
  max_daily_loss_pct : ℚ
  max_positions : ℕ
deriving DecidableEq

/-- The fields of `Signal` that the risk gate and the execution loop
read (`confidence` and metadata are never consulted there). -/
structure Signal where
  symbol : String
  side : String
  quantity : ℚ
deriving DecidableEq

/-- `RiskManager.validate_signal` (lines 27-45): mark lookup, notional
cap, concurrent-position cap against the positions dict, then the
drawdown check when the day anchor is set.  `anchor` is the optional
`_starting_equity` set by `reset_day`. -/
def validate_signal (limits : RiskLimits) (positions : List (String × Position))
    (anchor : Option ℚ) (sig : Signal) (marks : String → Option ℚ) (equity : ℚ) :
    Bool × String :=
  match marks sig.symbol with
  | none => (false, "Missing mark price")
  | some price =>
    let target_notional := |sig.quantity| * price
    let max_notional := equity * limits.max_position_pct
    if target_notional > max_notional then (false, "Position size exceeds risk limit")
    else if lookupPos positions sig.symbol = none ∧ limits.max_positions ≤ positions.length then
      (false, "Maximum concurrent positions reached")
    else
      match anchor with
      | some a =>
        if 1 - equity / a > limits.max_daily_loss_pct then (false, "Daily loss limit breached")
        else (true, "OK")
      | none => (true, "OK")

/-- Check 1 of the specified order: the mark for the symbol is
missing. -/
def failsMark (sig : Signal) (marks : String → Option ℚ) : Prop :=
  marks sig.symbol = none

/-- Check 2 of the specified order: the target notional exceeds the
equity fraction allowed by `max_position_pct`. -/
def failsSize (limits : RiskLimits) (sig : Signal) (marks : String → Option ℚ)
    (equity : ℚ) : Prop :=
  ∃ price, marks sig.symbol = some price ∧ equity * limits.max_position_pct < |sig.quantity| * price

/-- Check 3 of the specified order: the symbol is not already held and
the position count has reached `max_positions`. -/
def failsCap (limits : RiskLimits) (positions : List (String × Position))
    (sig : Signal) : Prop :=
  lookupPos positions sig.symbol = none ∧ limits.max_positions ≤ positions.length

/-- Check 4 of the specified order: the day anchor is set and the
drawdown from it exceeds `max_daily_loss_pct`. -/
def failsLoss (limits : RiskLimits) (anchor : Option ℚ) (equity : ℚ) : Prop :=
  ∃ a, anchor = some a ∧ limits.max_daily_loss_pct < 1 - equity / a

/-- The fields of `OrderResult` that the execution loop reads. -/
structure OrderResult where
  filled_quantity : ℚ
  filled_price : Option ℚ
deriving DecidableEq

/-- Semantics of the Python expression
`result.filled_price or mark_price`: `or` falls through on `None` and
on the falsy float `0.0`. -/
def pythonOr (fp : Option ℚ) (mark : ℚ) : ℚ :=
  match fp with
  | none => mark
  | some p => if p = 0 then mark else p

/-- The portfolio booking of `ExecutionEngine._execute_signal`
(lines 86-92) for an `OrderResult` already returned by the router:
`notional = filled_quantity * (filled_price or mark_price)`; BUY
subtracts the notional from cash, SELL adds it; the position update is
made at `mark_price` (the tick price), with the fill quantity negated
for SELL. -/
def execute_signal (snap : PortfolioSnapshot) (side symbol : String)
    (result : OrderResult) (mark_price : ℚ) : PortfolioSnapshot :=
  let notional := result.filled_quantity * pythonOr result.filled_price mark_price
  if side = "BUY" then
    update_position (update_cash snap (-notional)) symbol result.filled_quantity mark_price
  else
    update_position (update_cash snap notional) symbol (-result.filled_quantity) mark_price

/-- Outcome of one `OrderManager.submit` call as observed by the
execution loop: either an `OrderResult` or a raised error. -/
inductive SubmitOutcome where
  | raises
  | fills (result : OrderResult)
deriving DecidableEq

/-- The per-tick signal loop of `ExecutionEngine._handle_tick`
(lines 71-76) with the submit outcome of each signal made explicit:
rejected signals are skipped; an approved signal whose submit raises
ends the handler (there is no try/except around `_execute_signal`, so
the exception propagates out of `_handle_tick`), returning the
portfolio as mutated so far and `true` for the escaped error; an
approved signal that fills is booked and the loop continues.  `marks`,
`equity` and `mark` are fixed for the tick, as in the code. -/
def handle_signals (limits : RiskLimits) (anchor : Option ℚ) (marks : String → Option ℚ)
    (equity mark : ℚ) :
    PortfolioSnapshot → List (Signal × SubmitOutcome) → PortfolioSnapshot × Bool
  | snap, [] => (snap, false)
  | snap, (sig, out) :: rest =>
    if (validate_signal limits snap.positions anchor sig marks equity).1 then
      match out with
      | .raises => (snap, true)
      | .fills result =>
        handle_signals limits anchor marks equity mark
          (execute_signal snap sig.side sig.symbol result mark) rest
    else
      handle_signals limits anchor marks equity mark snap rest

/-- `OrderManager._submit_simulated` for the request the loops build
(`price = mark`): fills the full quantity at
`request.price or 0.0`. -/
def simResult (quantity mark : ℚ) : OrderResult :=
  ⟨quantity, some (if mark = 0 then 0 else mark)⟩

/-- The per-candle signal loop of `BacktestEngine.run` (lines 63-68):
each approved signal is executed through the simulated router at the
candle price and recorded in `executed`. -/
def bt_exec_signals (limits : RiskLimits) (anchor : Option ℚ) (marks : String → Option ℚ)
    (equity mark : ℚ) :
    PortfolioSnapshot → List Signal → PortfolioSnapshot × List Signal
  | snap, [] => (snap, [])
  | snap, sig :: rest =>
    if (validate_signal limits snap.positions anchor sig marks equity).1 then
      let snap' := execute_signal snap sig.side sig.symbol (simResult sig.quantity mark) mark
      let r := bt_exec_signals limits anchor marks equity mark snap' rest
      (r.1, sig :: r.2)
    else
      bt_exec_signals limits anchor marks equity mark snap rest

/-- The candle loop of `BacktestEngine.run` (lines 54-69): per candle,
update the mark for the symbol to the close price, generate signals
from the (pure, stateful) strategy, compute equity, run the signal
loop, then append the post-execution mark-to-market value to the
equity curve. -/
def bt_run_aux {σ : Type} (limits : RiskLimits) (anchor : Option ℚ)
    (strat : σ → ℚ → σ × List Signal) (symbol : String) :
    σ → PortfolioSnapshot → (String → Option ℚ) → List ℚ → List ℚ × List Signal
  | _, _, _, [] => ([], [])
  | s, snap, marks, price :: rest =>
    let marks' := fun x => if x = symbol then some price else marks x
    let step := strat s price
    let equity := mark_to_market snap marks'
    let r := bt_exec_signals limits anchor marks' equity price snap step.2
    let tail := bt_run_aux limits anchor strat symbol step.1 r.1 marks' rest
    (mark_to_market r.1 marks' :: tail.1, r.2 ++ tail.2)

/-- `BacktestEngine.run` (lines 45-71): the starting equity (over the
empty mark map) seeds the risk day anchor, then the candle loop runs;
the function returns `(equity_curve, executed_signals)`. -/
def bt_run {σ : Type} (limits : RiskLimits) (strat : σ → ℚ → σ × List Signal) (s0 : σ)
    (symbol : String) (snap0 : PortfolioSnapshot) (candles : List ℚ) :
    List ℚ × List Signal :=
  let anchor := some (mark_to_market snap0 (fun _ => none))
  bt_run_aux limits anchor strat symbol s0 snap0 (fun _ => none) candles

section MapLemmas

theorem lookupPos_setPos_self (ps : List (String × Position)) (sym : String) (p : Position) :
    lookupPos (setPos ps sym p) sym = some p := by
  induction ps with
  | nil => simp [setPos, lookupPos]
  | cons e rest ih =>
    by_cases h : e.1 = sym
    · simp [setPos, if_pos h, lookupPos]
    · simp only [setPos, if_neg h, lookupPos, if_neg h]
      exact ih

theorem lookupPos_setPos_ne (ps : List (String × Position)) (sym s : String) (p : Position)
    (h : s ≠ sym) : lookupPos (setPos ps sym p) s = lookupPos ps s := by
  induction ps with
  | nil =>
    simp only [setPos, lookupPos]
    rw [if_neg (fun h' => h h'.symm)]
  | cons e rest ih =>
    by_cases he : e.1 = sym
    · simp only [setPos, if_pos he, lookupPos]
      rw [if_neg (fun h' => h h'.symm), if_neg (fun h' : e.1 = s => h (h'.symm.trans he))]
    · simp only [setPos, if_neg he, lookupPos]
      by_cases hs : e.1 = s
      · rw [if_pos hs, if_pos hs]
      · rw [if_neg hs, if_neg hs]
        exact ih

theorem mem_setPos (ps : List (String × Position)) (sym : String) (p : Position)
    (x : String × Position) (hx : x ∈ setPos ps sym p) : x ∈ ps ∨ x = (sym, p) := by
  induction ps with
  | nil => simp [setPos] at hx; exact Or.inr hx
  | cons e rest ih =>
    by_cases he : e.1 = sym
    · simp [setPos, he] at hx
      rcases hx with hx | hx
      · exact Or.inr hx
      · exact Or.inl (List.mem_cons_of_mem _ hx)
    · simp [setPos, he] at hx
      rcases hx with hx | hx
      · exact Or.inl (by simp [hx])
      · rcases ih hx with h | h
        · exact Or.inl (List.mem_cons_of_mem _ h)
        · exact Or.inr h

theorem positionOf_update (snap : PortfolioSnapshot) (sym : String) (fq fp : ℚ) :
    positionOf (update_position snap sym fq fp) sym
      = applyFill (positionOf snap sym) fq fp := by
  simp [positionOf, update_position, lookupPos_setPos_self]

theorem update_position_cash (snap : PortfolioSnapshot) (sym : String) (fq fp : ℚ) :
    (update_position snap sym fq fp).cash = snap.cash := rfl

end MapLemmas

section FillLemmas

theorem map_congr_on {α β : Type} (l : List α) (f g : α → β)
    (h : ∀ x ∈ l, f x = g x) : l.map f = l.map g := by
  induction l with
  | nil => rfl
  | cons a rest ih =>
    simp only [List.map_cons]
    rw [h a (by simp), ih (fun x hx => h x (by simp [hx]))]

theorem sum_map_neg {α : Type} (l : List α) (g : α → ℚ) :
    (l.map (fun x => -(g x))).sum = -((l.map g).sum) := by
  induction l with
  | nil => simp
  | cons a rest ih => simp [ih]; ring

theorem positionOf_applyFills (sym : String) (l : List (ℚ × ℚ)) :
    ∀ snap : PortfolioSnapshot,
      positionOf (applyFills snap sym l) sym = l.foldl fillStep (positionOf snap sym) := by
  induction l with
  | nil => intro snap; rfl
  | cons f rest ih =>
    intro snap
    have h1 : applyFills snap sym (f :: rest)
        = applyFills (update_position snap sym f.1 f.2) sym rest := rfl
    rw [h1, ih, positionOf_update]
    rfl

theorem sameDir_pos_aux (l : List (ℚ × ℚ)) :
    ∀ pos : Position, (∀ x ∈ l, 0 < x.1) → 0 < pos.quantity →
      (l.foldl fillStep pos).quantity = pos.quantity + (l.map (fun f => f.1)).sum ∧
      (l.foldl fillStep pos).average_price
        = (pos.average_price * pos.quantity + (l.map (fun f => f.1 * f.2)).sum)
          / (pos.quantity + (l.map (fun f => f.1)).sum) := by
  induction l with
  | nil =>
    intro pos _ hq
    refine ⟨by simp, ?_⟩
    simp only [List.foldl_nil, List.map_nil, List.sum_nil, add_zero]
    exact (mul_div_cancel_right₀ _ (ne_of_gt hq)).symm
  | cons f rest ih =>
    intro pos hl hq
    have hf : 0 < f.1 := hl f (by simp)
    have hrest : ∀ x ∈ rest, 0 < x.1 := fun x hx => hl x (by simp [hx])
    have hfq : f.1 ≠ 0 := ne_of_gt hf
    have hnew : ¬ (pos.quantity + f.1 = 0) := ne_of_gt (by linarith)
    have hcq : ¬ (pos.quantity = 0) := ne_of_gt hq
    have hprod : pos.quantity * f.1 > 0 := mul_pos hq hf
    have hstepq : (fillStep pos f).quantity = pos.quantity + f.1 := by
      simp only [fillStep, applyFill, if_neg hfq, if_neg hnew, if_neg hcq, if_pos hprod]
    have hstepa : (fillStep pos f).average_price
        = (pos.average_price * pos.quantity + f.2 * f.1) / (pos.quantity + f.1) := by
      simp only [fillStep, applyFill, if_neg hfq, if_neg hnew, if_neg hcq, if_pos hprod,
        abs_of_pos hq, abs_of_pos hf]
    obtain ⟨ihq, iha⟩ := ih (fillStep pos f) hrest (by rw [hstepq]; linarith)
    rw [List.foldl_cons] at *
    constructor
    · rw [ihq, hstepq]
      simp only [List.map_cons, List.sum_cons]
      ring
    · rw [iha, hstepq, hstepa]
      have hne : pos.quantity + f.1 ≠ 0 := hnew
      rw [div_mul_cancel₀ _ hne]
      simp only [List.map_cons, List.sum_cons]
      congr 1 <;> ring

theorem sameDir_neg_aux (l : List (ℚ × ℚ)) :
    ∀ pos : Position, (∀ x ∈ l, x.1 < 0) → pos.quantity < 0 →
      (l.foldl fillStep pos).quantity = pos.quantity + (l.map (fun f => f.1)).sum ∧
      (l.foldl fillStep pos).average_price
        = (pos.average_price * pos.quantity + (l.map (fun f => f.1 * f.2)).sum)
          / (pos.quantity + (l.map (fun f => f.1)).sum) := by
  induction l with
  | nil =>
    intro pos _ hq
    refine ⟨by simp, ?_⟩
    simp only [List.foldl_nil, List.map_nil, List.sum_nil, add_zero]
    exact (mul_div_cancel_right₀ _ (ne_of_lt hq)).symm
  | cons f rest ih =>
    intro pos hl hq
    have hf : f.1 < 0 := hl f (by simp)
    have hrest : ∀ x ∈ rest, x.1 < 0 := fun x hx => hl x (by simp [hx])
    have hfq : f.1 ≠ 0 := ne_of_lt hf
    have hnew : ¬ (pos.quantity + f.1 = 0) := ne_of_lt (by linarith)
    have hcq : ¬ (pos.quantity = 0) := ne_of_lt hq
    have hprod : pos.quantity * f.1 > 0 := mul_pos_of_neg_of_neg hq hf
    have hstepq : (fillStep pos f).quantity = pos.quantity + f.1 := by
      simp only [fillStep, applyFill, if_neg hfq, if_neg hnew, if_neg hcq, if_pos hprod]
    have hstepa : (fillStep pos f).average_price
        = (pos.average_price * pos.quantity + f.2 * f.1) / (pos.quantity + f.1) := by
      simp only [fillStep, applyFill, if_neg hfq, if_neg hnew, if_neg hcq, if_pos hprod,
        abs_of_neg hq, abs_of_neg hf]
      rw [mul_neg, mul_neg, ← neg_add, ← neg_add, neg_div_neg_eq]
    obtain ⟨ihq, iha⟩ := ih (fillStep pos f) hrest (by rw [hstepq]; linarith)
    rw [List.foldl_cons] at *
    constructor
    · rw [ihq, hstepq]
      simp only [List.map_cons, List.sum_cons]
      ring
    · rw [iha, hstepq, hstepa]
      have hne : pos.quantity + f.1 ≠ 0 := hnew
      rw [div_mul_cancel₀ _ hne]
      simp only [List.map_cons, List.sum_cons]
      congr 1 <;> ring

theorem applyFill_flat (pos : Position) (fq fp : ℚ) (hq : pos.quantity = 0) (hfq : fq ≠ 0) :
    (applyFill pos fq fp).quantity = fq ∧ (applyFill pos fq fp).average_price = fp := by
  have hnew : ¬ (pos.quantity + fq = 0) := by rw [hq, zero_add]; exact hfq
  constructor <;> simp [applyFill, if_neg hfq, if_neg hnew, hq]

end FillLemmas

example : applyFill ⟨"B", 0, 0⟩ 1 100 = ⟨"B", 1, 100⟩ := by norm_num [applyFill]
example : applyFill ⟨"B", 1, 100⟩ 1 110 = ⟨"B", 2, 105⟩ := by norm_num [applyFill]
example : applyFill ⟨"B", 2, 100⟩ (-1) 110 = ⟨"B", 1, 100⟩ := by norm_num [applyFill]
example : applyFill ⟨"B", 1, 100⟩ (-2) 120 = ⟨"B", -1, 120⟩ := by norm_num [applyFill]
example : applyFill ⟨"B", 1, 100⟩ (-1) 100 = ⟨"B", 0, 0⟩ := by norm_num [applyFill]

/-- C1: applying a sequence of same-direction fills `(q_i, p_i)`
through `update_position`, starting from a flat (zero-quantity, and
hence zero-average-price) position for the symbol, yields quantity
`Σ q_i` and average price `Σ |q_i| * p_i / Σ |q_i|`. -/
theorem claim_c1_same_direction_average
    (snap : PortfolioSnapshot) (sym : String) (l : List (ℚ × ℚ))
    (hflat : (positionOf snap sym).quantity = 0)
    (havg : (positionOf snap sym).average_price = 0)
    (hdir : (∀ x ∈ l, 0 < x.1) ∨ (∀ x ∈ l, x.1 < 0)) :
    (positionOf (applyFills snap sym l) sym).quantity = (l.map (fun f => f.1)).sum ∧
    (positionOf (applyFills snap sym l) sym).average_price
      = (l.map (fun f => |f.1| * f.2)).sum / (l.map (fun f => |f.1|)).sum := by
  rw [positionOf_applyFills]
  cases l with
  | nil => simp [hflat, havg]
  | cons f rest =>
    rcases hdir with hpos | hneg
    · have hf : 0 < f.1 := hpos f (by simp)
      have hrest : ∀ x ∈ rest, 0 < x.1 := fun x hx => hpos x (by simp [hx])
      obtain ⟨h1q0, h1a0⟩ := applyFill_flat (positionOf snap sym) f.1 f.2 hflat (ne_of_gt hf)
      have h1q : (fillStep (positionOf snap sym) f).quantity = f.1 := h1q0
      have h1a : (fillStep (positionOf snap sym) f).average_price = f.2 := h1a0
      obtain ⟨ihq, iha⟩ := sameDir_pos_aux rest (fillStep (positionOf snap sym) f) hrest
        (by rw [h1q]; exact hf)
      rw [List.foldl_cons]
      have hmap1 : rest.map (fun f => |f.1| * f.2) = rest.map (fun f => f.1 * f.2) :=
        map_congr_on _ _ _ (fun x hx => by rw [abs_of_pos (hrest x hx)])
      have hmap2 : rest.map (fun f : ℚ × ℚ => |f.1|) = rest.map (fun f => f.1) :=
        map_congr_on _ _ _ (fun x hx => by rw [abs_of_pos (hrest x hx)])
      constructor
      · rw [ihq, h1q]
        simp only [List.map_cons, List.sum_cons]
      · rw [iha, h1q, h1a]
        simp only [List.map_cons, List.sum_cons, hmap1, hmap2, abs_of_pos hf]
        congr 1
        ring
    · have hf : f.1 < 0 := hneg f (by simp)
      have hrest : ∀ x ∈ rest, x.1 < 0 := fun x hx => hneg x (by simp [hx])
      obtain ⟨h1q0, h1a0⟩ := applyFill_flat (positionOf snap sym) f.1 f.2 hflat (ne_of_lt hf)
      have h1q : (fillStep (positionOf snap sym) f).quantity = f.1 := h1q0
      have h1a : (fillStep (positionOf snap sym) f).average_price = f.2 := h1a0
      obtain ⟨ihq, iha⟩ := sameDir_neg_aux rest (fillStep (positionOf snap sym) f) hrest
        (by rw [h1q]; exact hf)
      rw [List.foldl_cons]
      have hmap1 : rest.map (fun f => |f.1| * f.2) = rest.map (fun f => -(f.1 * f.2)) :=
        map_congr_on _ _ _ (fun x hx => by rw [abs_of_neg (hrest x hx)]; ring)
      have hmap2 : rest.map (fun f : ℚ × ℚ => |f.1|) = rest.map (fun f => -(f.1)) :=
        map_congr_on _ _ _ (fun x hx => by rw [abs_of_neg (hrest x hx)])
      constructor
      · rw [ihq, h1q]
        simp only [List.map_cons, List.sum_cons]
      · rw [iha, h1q, h1a]
        simp only [List.map_cons, List.sum_cons, hmap1, hmap2, abs_of_neg hf,
          sum_map_neg]
        rw [show -f.1 * f.2 + -((rest.map (fun f => f.1 * f.2)).sum)
              = -(f.2 * f.1 + (rest.map (fun f => f.1 * f.2)).sum) by ring,
            show -f.1 + -((rest.map (fun f : ℚ × ℚ => f.1)).sum)
              = -(f.1 + (rest.map (fun f => f.1)).sum) by ring,
            neg_div_neg_eq]

/-- C1 witness: BUY 1 at 100 then BUY 1 at 110 from flat gives
quantity 2 and average price 105 (spec scenario 1). -/
theorem claim_c1_witness :
    (positionOf (applyFills ⟨1000, []⟩ "BTCUSDT" [(1, 100), (1, 110)]) "BTCUSDT").quantity = 2 ∧
    (positionOf (applyFills ⟨1000, []⟩ "BTCUSDT" [(1, 100), (1, 110)]) "BTCUSDT").average_price
      = 105 := by
  obtain ⟨h1, h2⟩ := claim_c1_same_direction_average ⟨1000, []⟩ "BTCUSDT" [(1, 100), (1, 110)]
    rfl rfl (Or.inl (by intro x hx; simp at hx; rcases hx with h | h <;> simp [h]))
  constructor
  · rw [h1]; norm_num
  · rw [h2]; norm_num

/-- Core of C2 at the level of one position: an opposite-direction
fill strictly smaller than the held size keeps the average price and
shrinks the absolute quantity by the fill size; an opposite fill
strictly larger flips the position to the fill price and leaves
quantity equal to prior plus fill. -/
theorem applyFill_opposite (pos : Position) (fq fp : ℚ) (h : pos.quantity * fq < 0) :
    (|fq| < |pos.quantity| →
      (applyFill pos fq fp).average_price = pos.average_price ∧
      |(applyFill pos fq fp).quantity| = |pos.quantity| - |fq|) ∧
    (|pos.quantity| < |fq| →
      (applyFill pos fq fp).average_price = fp ∧
      (applyFill pos fq fp).quantity = pos.quantity + fq) := by
  have hfq : fq ≠ 0 := by
    intro h0; rw [h0, mul_zero] at h; exact lt_irrefl _ h
  have hcq : ¬ (pos.quantity = 0) := by
    intro h0; rw [h0, zero_mul] at h; exact lt_irrefl _ h
  have hnotsame : ¬ (pos.quantity * fq > 0) := not_lt.mpr (le_of_lt h)
  constructor
  · intro hlt
    have hnew : ¬ (pos.quantity + fq = 0) := by
      intro h0
      have hfqe : fq = -pos.quantity := by linarith
      rw [hfqe, abs_neg] at hlt
      exact lt_irrefl _ hlt
    have havg : (applyFill pos fq fp).average_price = pos.average_price := by
      simp only [applyFill, if_neg hfq, if_neg hnew, if_neg hcq, if_neg hnotsame, if_pos hlt]
    have hqty : (applyFill pos fq fp).quantity = pos.quantity + fq := by
      simp only [applyFill, if_neg hfq, if_neg hnew, if_neg hcq, if_neg hnotsame, if_pos hlt]
    refine ⟨havg, ?_⟩
    rw [hqty]
    rcases lt_or_gt_of_ne hcq with hqneg | hqpos
    · have hfpos : 0 < fq := by nlinarith
      rw [abs_of_neg hqneg, abs_of_pos hfpos] at hlt ⊢
      rw [abs_of_neg (by linarith : pos.quantity + fq < 0)]
      ring
    · have hfneg : fq < 0 := by nlinarith
      rw [abs_of_pos hqpos, abs_of_neg hfneg] at hlt ⊢
      rw [abs_of_pos (by linarith : 0 < pos.quantity + fq)]
      ring
  · intro hgt
    have hnew : ¬ (pos.quantity + fq = 0) := by
      intro h0
      have hfqe : fq = -pos.quantity := by linarith
      rw [hfqe, abs_neg] at hgt
      exact lt_irrefl _ hgt
    have hnotlt : ¬ (|fq| < |pos.quantity|) := not_lt.mpr (le_of_lt hgt)
    constructor <;>
      simp only [applyFill, if_neg hfq, if_neg hnew, if_neg hcq, if_neg hnotsame, if_neg hnotlt]

/-- C2: for a held position (opposite-direction fill, so quantity is
nonzero), `update_position` with a smaller opposite fill keeps the
average price and reduces the absolute quantity by the fill size,
while a sign-flipping opposite fill sets the average price to the fill
price and leaves quantity equal to prior plus fill. -/
theorem claim_c2_opposite_fills (snap : PortfolioSnapshot) (sym : String) (fq fp : ℚ)
    (h : (positionOf snap sym).quantity * fq < 0) :
    (|fq| < |(positionOf snap sym).quantity| →
      (positionOf (update_position snap sym fq fp) sym).average_price
        = (positionOf snap sym).average_price ∧
      |(positionOf (update_position snap sym fq fp) sym).quantity|
        = |(positionOf snap sym).quantity| - |fq|) ∧
    (|(positionOf snap sym).quantity| < |fq| →
      (positionOf (update_position snap sym fq fp) sym).average_price = fp ∧
      (positionOf (update_position snap sym fq fp) sym).quantity
        = (positionOf snap sym).quantity + fq) := by
  rw [positionOf_update]
  exact applyFill_opposite (positionOf snap sym) fq fp h

/-- C2 witness: from a long of 2 at average 100, SELL 1 at 110 keeps
the average at 100 and leaves absolute quantity 1 (spec scenario 3);
the hypotheses are discharged at that concrete input. -/
theorem claim_c2_witness :
    (positionOf (update_position ⟨0, [("B", ⟨"B", 2, 100⟩)]⟩ "B" (-1) 110) "B").average_price
      = 100 ∧
    |(positionOf (update_position ⟨0, [("B", ⟨"B", 2, 100⟩)]⟩ "B" (-1) 110) "B").quantity|
      = 1 := by
  have hpos : positionOf ⟨0, [("B", ⟨"B", 2, 100⟩)]⟩ "B" = ⟨"B", 2, 100⟩ := by
    simp [positionOf, lookupPos]
  have h := claim_c2_opposite_fills ⟨0, [("B", ⟨"B", 2, 100⟩)]⟩ "B" (-1) 110
    (by rw [hpos]; norm_num)
  obtain ⟨hp, _⟩ := h
  obtain ⟨h1, h2⟩ := hp (by rw [hpos]; norm_num)
  refine ⟨?_, ?_⟩
  · rw [h1, hpos]
  · rw [h2, hpos]
    norm_num

/-- The per-entry position invariant of the spec: zero quantity forces
zero average price. -/
def listInv (ps : List (String × Position)) : Prop :=
  ∀ x ∈ ps, x.2.quantity = 0 → x.2.average_price = 0

theorem applyFill_inv (pos : Position) (fq fp : ℚ)
    (h : pos.quantity = 0 → pos.average_price = 0) :
    (applyFill pos fq fp).quantity = 0 → (applyFill pos fq fp).average_price = 0 := by
  by_cases hfq : fq = 0
  · simp only [applyFill, if_pos hfq]; exact h
  by_cases hnew : pos.quantity + fq = 0
  · simp only [applyFill, if_neg hfq, if_pos hnew]
    intro _; trivial
  by_cases hcq : pos.quantity = 0
  · simp only [applyFill, if_neg hfq, if_neg hnew, if_pos hcq]
    intro hq0; exact absurd hq0 hnew
  by_cases hsame : pos.quantity * fq > 0
  · simp only [applyFill, if_neg hfq, if_neg hnew, if_neg hcq, if_pos hsame]
    intro hq0; exact absurd hq0 hnew
  by_cases hlt : |fq| < |pos.quantity|
  · simp only [applyFill, if_neg hfq, if_neg hnew, if_neg hcq, if_neg hsame, if_pos hlt]
    intro hq0; exact absurd hq0 hnew
  · simp only [applyFill, if_neg hfq, if_neg hnew, if_neg hcq, if_neg hsame, if_neg hlt]
    intro hq0; exact absurd hq0 hnew

theorem lookupPos_inv (ps : List (String × Position)) (hinv : listInv ps) (s : String)
    (p : Position) (hl : lookupPos ps s = some p) :
    p.quantity = 0 → p.average_price = 0 := by
  induction ps with
  | nil => simp [lookupPos] at hl
  | cons e rest ih =>
    by_cases he : e.1 = s
    · simp only [lookupPos, if_pos he] at hl
      have : p = e.2 := (Option.some_inj.mp hl).symm
      rw [this]
      exact hinv e (by simp)
    · simp only [lookupPos, if_neg he] at hl
      exact ih (fun x hx => hinv x (by simp [hx])) hl

theorem positionOf_inv (snap : PortfolioSnapshot) (sym : String)
    (hinv : listInv snap.positions) :
    (positionOf snap sym).quantity = 0 → (positionOf snap sym).average_price = 0 := by
  unfold positionOf
  cases hl : lookupPos snap.positions sym with
  | none => intro _; rfl
  | some q => exact lookupPos_inv snap.positions hinv sym q hl

theorem setPos_inv (ps : List (String × Position)) (sym : String) (p : Position)
    (hinv : listInv ps) (hp : p.quantity = 0 → p.average_price = 0) :
    listInv (setPos ps sym p) := by
  intro x hx
  rcases mem_setPos ps sym p x hx with h | h
  · exact hinv x h
  · rw [h]; exact hp

theorem update_position_inv (snap : PortfolioSnapshot) (sym : String) (fq fp : ℚ)
    (hinv : listInv snap.positions) :
    listInv (update_position snap sym fq fp).positions := by
  unfold update_position
  exact setPos_inv _ _ _ hinv (applyFill_inv _ _ _ (positionOf_inv snap sym hinv))

theorem runOps_aux_inv (ops : List PMOp) :
    ∀ snap : PortfolioSnapshot, listInv snap.positions →
      listInv (ops.foldl applyOp snap).positions := by
  induction ops with
  | nil => intro snap h; exact h
  | cons op rest ih =>
    intro snap h
    rw [List.foldl_cons]
    apply ih
    cases op with
    | updateCash delta => exact h
    | updatePosition symbol fq fp => exact update_position_inv snap symbol fq fp h

/-- C3: in every portfolio reachable from a fresh `PortfolioManager`
by `update_cash` and `update_position` calls, any position entry with
zero quantity has zero average price (in particular an exact close
resets the average price to 0). -/
theorem claim_c3_zero_qty_invariant (starting_cash : ℚ) (ops : List PMOp) (sym : String)
    (p : Position) (hl : lookupPos (runOps starting_cash ops).positions sym = some p)
    (hq : p.quantity = 0) : p.average_price = 0 := by
  have hinv : listInv (runOps starting_cash ops).positions :=
    runOps_aux_inv ops ⟨starting_cash, []⟩ (by intro x hx; simp at hx)
  exact lookupPos_inv _ hinv sym p hl hq

/-- C3 witness: BUY 1 at 100 then an exact close SELL 1 at 100 leaves
the entry at quantity 0, and the theorem yields average price 0 (spec
scenario 2). -/
theorem claim_c3_witness :
    lookupPos (runOps 1000 [PMOp.updatePosition "B" 1 100,
      PMOp.updatePosition "B" (-1) 100]).positions "B" = some ⟨"B", 0, 0⟩ ∧
    (⟨"B", 0, 0⟩ : Position).average_price = 0 := by
  have hl : lookupPos (runOps 1000 [PMOp.updatePosition "B" 1 100,
      PMOp.updatePosition "B" (-1) 100]).positions "B" = some ⟨"B", 0, 0⟩ := by
    norm_num [runOps, applyOp, update_position, positionOf, lookupPos, setPos, applyFill,
      List.foldl]
  exact ⟨hl, claim_c3_zero_qty_invariant 1000 _ "B" ⟨"B", 0, 0⟩ hl rfl⟩

theorem applyFill_zero (pos : Position) (fp : ℚ) : applyFill pos 0 fp = pos := by
  simp [applyFill]

/-- C9 counterexample: a zero fill on a symbol with no prior entry is
not a no-op on the set of position entries — the `setdefault` on
line 50 of `portfolio_manager.py` inserts a fresh entry before the
zero-fill check returns, so the claim fails at
`update_position("X", 0, 5)` on an empty book. -/
theorem claim_c9_counterexample :
    lookupPos (update_position ⟨1000, []⟩ "X" 0 5).positions "X"
      ≠ lookupPos (⟨1000, []⟩ : PortfolioSnapshot).positions "X" := by
  simp [update_position, positionOf, lookupPos, setPos, applyFill]

/-- C9 amended: a zero fill leaves cash and every existing entry (its
quantity and average price included) unchanged, and leaves the entry
set unchanged when the symbol already has an entry; when the symbol
has no entry, the only change is that a fresh zero-quantity,
zero-average-price entry for it is inserted. -/
theorem claim_c9_amended_zero_fill (snap : PortfolioSnapshot) (sym : String) (fp : ℚ) :
    (update_position snap sym 0 fp).cash = snap.cash ∧
    ∀ s, lookupPos (update_position snap sym 0 fp).positions s
      = if s = sym then some (positionOf snap sym) else lookupPos snap.positions s := by
  refine ⟨rfl, ?_⟩
  intro s
  by_cases hs : s = sym
  · rw [if_pos hs, hs]
    unfold update_position
    rw [applyFill_zero]
    exact lookupPos_setPos_self snap.positions sym (positionOf snap sym)
  · rw [if_neg hs]
    unfold update_position
    exact lookupPos_setPos_ne snap.positions sym s _ hs

/-- C10: `update_position` never changes cash, and never changes the
entry of any symbol other than the one being filled. -/
theorem claim_c10_frame (snap : PortfolioSnapshot) (sym : String) (fq fp : ℚ) (s : String) :
    (update_position snap sym fq fp).cash = snap.cash ∧
    (s ≠ sym → lookupPos (update_position snap sym fq fp).positions s
      = lookupPos snap.positions s) := by
  refine ⟨rfl, ?_⟩
  intro hs
  unfold update_position
  exact lookupPos_setPos_ne snap.positions sym s _ hs

/-- C10 witness: filling symbol B leaves the cash and the entry of
symbol A untouched. -/
theorem claim_c10_witness :
    (update_position ⟨5, [("A", ⟨"A", 2, 3⟩)]⟩ "B" 1 10).cash = 5 ∧
    lookupPos (update_position ⟨5, [("A", ⟨"A", 2, 3⟩)]⟩ "B" 1 10).positions "A"
      = some ⟨"A", 2, 3⟩ := by
  obtain ⟨h1, h2⟩ := claim_c10_frame ⟨5, [("A", ⟨"A", 2, 3⟩)]⟩ "B" 1 10 "A"
  refine ⟨h1, ?_⟩
  rw [h2 (by decide)]
  simp [lookupPos]

/-- C5: `validate_signal` returns exactly the rejection reason of the
earliest failing check in the fixed order mark / size / cap / daily
loss, and `(true, OK)` precisely when no check fails.  The four check
predicates are stated independently of the code path. -/
theorem claim_c5_first_failure_wins (limits : RiskLimits)
    (positions : List (String × Position)) (anchor : Option ℚ) (sig : Signal)
    (marks : String → Option ℚ) (equity : ℚ) :
    (validate_signal limits positions anchor sig marks equity
        = (false, "Missing mark price") ↔ failsMark sig marks) ∧
    (validate_signal limits positions anchor sig marks equity
        = (false, "Position size exceeds risk limit")
      ↔ ¬ failsMark sig marks ∧ failsSize limits sig marks equity) ∧
    (validate_signal limits positions anchor sig marks equity
        = (false, "Maximum concurrent positions reached")
      ↔ ¬ failsMark sig marks ∧ ¬ failsSize limits sig marks equity ∧
        failsCap limits positions sig) ∧
    (validate_signal limits positions anchor sig marks equity
        = (false, "Daily loss limit breached")
      ↔ ¬ failsMark sig marks ∧ ¬ failsSize limits sig marks equity ∧
        ¬ failsCap limits positions sig ∧ failsLoss limits anchor equity) ∧
    (validate_signal limits positions anchor sig marks equity
        = (true, "OK")
      ↔ ¬ failsMark sig marks ∧ ¬ failsSize limits sig marks equity ∧
        ¬ failsCap limits positions sig ∧ ¬ failsLoss limits anchor equity) := by
  cases hm : marks sig.symbol with
  | none =>
    simp [validate_signal, failsMark, failsSize, failsCap, failsLoss, hm]
  | some price =>
    by_cases h2 : |sig.quantity| * price > equity * limits.max_position_pct
    · simp [validate_signal, failsMark, failsSize, failsCap, failsLoss, hm, h2]
    · by_cases h3 : lookupPos positions sig.symbol = none ∧
        limits.max_positions ≤ positions.length
      · simp [validate_signal, failsMark, failsSize, failsCap, failsLoss, hm, h2, h3]
      · cases anchor with
        | none =>
          simp [validate_signal, failsMark, failsSize, failsCap, failsLoss, hm, h2, h3]
        | some a =>
          by_cases h4 : 1 - equity / a > limits.max_daily_loss_pct
          · simp [validate_signal, failsMark, failsSize, failsCap, failsLoss, hm, h2, h3, h4]
          · simp [validate_signal, failsMark, failsSize, failsCap, failsLoss, hm, h2, h3, h4]

/-- C6 counterexample: with `max_positions = 1` and a single held
entry whose quantity is zero, a signal for a new symbol that passes
the mark and size checks is still rejected with the cap reason, even
though the number of symbols with non-zero position quantity is zero —
the code counts dict entries, not non-zero positions. -/
theorem claim_c6_counterexample :
    validate_signal ⟨1, 1, 1⟩ [("AAA", ⟨"AAA", 0, 0⟩)] none ⟨"BBB", "BUY", 1⟩
      (fun s => if s = "BBB" then some 1 else none) 100
      = (false, "Maximum concurrent positions reached") ∧
    (⟨"AAA", 0, 0⟩ : Position).quantity = 0 := by
  constructor
  · have hne : ¬ ("AAA" : String) = "BBB" := by decide
    norm_num [validate_signal, lookupPos, hne]
  · rfl

/-- C6 amended: the cap rejection fires exactly when the symbol has no
entry in the positions dict and the number of dict entries — zero
quantity entries included — has reached `max_positions` (with the mark
and size checks passing); an entry with zero quantity still counts
toward the cap and still counts as holding the symbol. -/
theorem claim_c6_amended_cap_counts_entries (limits : RiskLimits)
    (positions : List (String × Position)) (anchor : Option ℚ) (sig : Signal)
    (marks : String → Option ℚ) (equity : ℚ) :
    validate_signal limits positions anchor sig marks equity
        = (false, "Maximum concurrent positions reached")
      ↔ ¬ failsMark sig marks ∧ ¬ failsSize limits sig marks equity ∧
        lookupPos positions sig.symbol = none ∧ limits.max_positions ≤ positions.length := by
  cases hm : marks sig.symbol with
  | none =>
    simp [validate_signal, failsMark, failsSize, hm]
  | some price =>
    by_cases h2 : |sig.quantity| * price > equity * limits.max_position_pct
    · simp [validate_signal, failsMark, failsSize, hm, h2]
    · by_cases h3 : lookupPos positions sig.symbol = none ∧
        limits.max_positions ≤ positions.length
      · simp [validate_signal, failsMark, failsSize, hm, h2, h3]
      · cases anchor with
        | none => simp [validate_signal, failsMark, failsSize, hm, h2, h3]
        | some a =>
          by_cases h4 : 1 - equity / a > limits.max_daily_loss_pct
          · simp [validate_signal, failsMark, failsSize, hm, h2, h3, h4]
          · simp [validate_signal, failsMark, failsSize, hm, h2, h3, h4]

/-- C4: for any order result `(fq, fp)` returned by the router (whose
backends never produce a present-but-zero filled price), the booking
step changes cash by `fq * (filled price when present, else the tick
price)` — subtracted for BUY, added for SELL — and books the position
through `update_position` at the tick price `mark`, not at the fill
price. -/
theorem claim_c4_booking (snap : PortfolioSnapshot) (side sym : String) (fq : ℚ)
    (fp : Option ℚ) (mark : ℚ) (hfp : ∀ p, fp = some p → p ≠ 0) :
    (execute_signal snap side sym ⟨fq, fp⟩ mark).cash
      = snap.cash + (if side = "BUY" then -(fq * fp.getD mark) else fq * fp.getD mark) ∧
    (execute_signal snap side sym ⟨fq, fp⟩ mark).positions
      = (update_position snap sym (if side = "BUY" then fq else -fq) mark).positions := by
  have hor : pythonOr fp mark = fp.getD mark := by
    cases fp with
    | none => rfl
    | some p => simp [pythonOr, Option.getD, hfp p rfl]
  by_cases hside : side = "BUY"
  · subst hside
    refine ⟨?_, ?_⟩
    · simp only [execute_signal, if_pos rfl, update_position_cash, hor]
      rfl
    · simp only [execute_signal, if_pos rfl]
      rfl
  · refine ⟨?_, ?_⟩
    · simp only [execute_signal, if_neg hside, update_position_cash, hor]
      rfl
    · simp only [execute_signal, if_neg hside]
      rfl

/-- C4 witness: from cash 1000, a BUY of quantity 1 at tick price 100
filled at 101.5 leaves cash 898.5 and a position of quantity 1 at
average price 100, the tick price (spec scenario 7). -/
theorem claim_c4_witness :
    (execute_signal ⟨1000, []⟩ "BUY" "BTCUSDT" ⟨1, some (203 / 2)⟩ 100).cash = 1797 / 2 ∧
    lookupPos (execute_signal ⟨1000, []⟩ "BUY" "BTCUSDT" ⟨1, some (203 / 2)⟩ 100).positions
      "BTCUSDT" = some ⟨"BTCUSDT", 1, 100⟩ := by
  obtain ⟨h1, h2⟩ := claim_c4_booking ⟨1000, []⟩ "BUY" "BTCUSDT" 1 (some (203 / 2)) 100
    (by intro p hp; injection hp with hp; rw [← hp]; norm_num)
  constructor
  · rw [h1]
    norm_num
  · rw [h2]
    norm_num [update_position, positionOf, lookupPos, setPos, applyFill]

/-- C7 counterexample: a tick with two approved signals, the first of
which raises in `submit`, ends the handler with the error escaping and
the second signal unprocessed — even though the second signal is
approved and its execution would have changed cash — refuting the
claim that the remaining signals of the tick are still processed. -/
theorem claim_c7_counterexample :
    handle_signals ⟨1000000, 1, 10⟩ none (fun s => if s = "BBB" then some 10 else none) 100 10
      ⟨1000, []⟩ [(⟨"BBB", "BUY", 1⟩, SubmitOutcome.raises),
        (⟨"BBB", "BUY", 1⟩, SubmitOutcome.fills ⟨1, some 10⟩)]
      = (⟨1000, []⟩, true) ∧
    (validate_signal ⟨1000000, 1, 10⟩ [] none ⟨"BBB", "BUY", 1⟩
      (fun s => if s = "BBB" then some 10 else none) 100).1 = true ∧
    (execute_signal ⟨1000, []⟩ "BUY" "BBB" ⟨1, some 10⟩ 10).cash ≠ 1000 := by
  have hv : validate_signal ⟨1000000, 1, 10⟩ [] none ⟨"BBB", "BUY", 1⟩
      (fun s => if s = "BBB" then some 10 else none) 100 = (true, "OK") := by
    norm_num [validate_signal, lookupPos]
  refine ⟨?_, by rw [hv], ?_⟩
  · simp [handle_signals, hv]
  · norm_num [execute_signal, update_position_cash, update_cash, pythonOr]

/-- C7 amended: when the submit of an approved signal raises, the
portfolio is left exactly as it was before that signal (no mutation
for it, no retry), but the error escapes the tick handler and the
remaining signals of the tick are not processed. -/
theorem claim_c7_amended_raise_terminates (limits : RiskLimits) (anchor : Option ℚ)
    (marks : String → Option ℚ) (equity mark : ℚ) (snap : PortfolioSnapshot) (sig : Signal)
    (rest : List (Signal × SubmitOutcome))
    (happroved : (validate_signal limits snap.positions anchor sig marks equity).1 = true) :
    handle_signals limits anchor marks equity mark snap ((sig, SubmitOutcome.raises) :: rest)
      = (snap, true) := by
  simp [handle_signals, happroved]

/-- C7 amended witness: an approved raising signal at a concrete tick
returns the untouched portfolio with the escaped-error flag. -/
theorem claim_c7_amended_witness :
    handle_signals ⟨1000000, 1, 10⟩ none (fun s => if s = "CCC" then some 10 else none) 100 10
      ⟨500, []⟩ [(⟨"CCC", "BUY", 1⟩, SubmitOutcome.raises)] = (⟨500, []⟩, true) := by
  apply claim_c7_amended_raise_terminates
  norm_num [validate_signal, lookupPos]

/-- C8 counterexample: a one-candle backtest with a signal-free
strategy returns an equity curve of length 1, not 2 — no initial
pre-candle sample is appended (the starting equity only seeds the risk
day anchor), refuting the claimed initial sample. -/
theorem claim_c8_counterexample :
    (bt_run ⟨1, 1, 10⟩ (fun (s : Unit) (_ : ℚ) => (s, ([] : List Signal))) () "BBB"
      ⟨1000, []⟩ [100]).1.length ≠ [(100 : ℚ)].length + 1 := by
  norm_num [bt_run, bt_run_aux, bt_exec_signals]

theorem bt_run_aux_length {σ : Type} (limits : RiskLimits) (anchor : Option ℚ)
    (strat : σ → ℚ → σ × List Signal) (symbol : String) :
    ∀ (candles : List ℚ) (s : σ) (snap : PortfolioSnapshot) (marks : String → Option ℚ),
      (bt_run_aux limits anchor strat symbol s snap marks candles).1.length
        = candles.length := by
  intro candles
  induction candles with
  | nil => intro s snap marks; rfl
  | cons price rest ih =>
    intro s snap marks
    simp only [bt_run_aux, List.length_cons]
    rw [ih]

/-- C8 amended: the backtest equity curve holds exactly one sample per
fetched candle (each appended after that candle using the
post-execution mark-to-market value); no initial sample is appended —
the pre-candle starting equity is computed only to seed the risk day
anchor. -/
theorem claim_c8_amended_curve_length {σ : Type} (limits : RiskLimits)
    (strat : σ → ℚ → σ × List Signal) (s0 : σ) (symbol : String)
    (snap0 : PortfolioSnapshot) (candles : List ℚ) :
    (bt_run limits strat s0 symbol snap0 candles).1.length = candles.length := by
  unfold bt_run
  exact bt_run_aux_length limits _ strat symbol candles s0 snap0 _
